import Mathlib

/-!
# PRS-FinSight — holdings computation engine, shallow embedding

This file embeds the holdings computation core of the PRS-FinSight
repository in Lean 4 and proves the specification claims about it.

Embedded code:
* `compute_holdings` (src/app.py, lines 122-145): converts a transaction
  ledger into a per-(symbol, asset_type) position table joined with a
  live price snapshot.
* `price_snapshot` (src/pricing.py, lines 17-31): per-symbol latest and
  previous close lookup; tolerates per-symbol failures.

Modelling conventions:
* pandas DataFrames become lists of records; numeric columns become `ℚ`.
* `NaN` / missing values become `Option ℚ` with `none` for absence.
* The external yfinance fetch (`yf.Ticker(s).history(...)["Close"].dropna()`)
  is a parameter `fetch : String → Option (List ℚ)`: `none` models the
  fetch raising an exception, `some closes` models the dropna'd close
  series for the symbol.
* `groupby(["symbol","asset_type"])` (sort=True) becomes: the sorted list
  of distinct keys, each key paired with sums over its rows.
* The final `sort_values("symbol")` becomes a stable sort by symbol (the
  merged table is already symbol-sorted, so the sort is order-preserving).
-/

namespace FinSight

/-- A transaction row, as read by `compute_holdings` (src/app.py:122-145).
Columns `user_id`, `date`, `account` of the transactions table are never
read by the engine and are omitted. -/
structure Transaction where
  symbol : String
  asset_type : String
  txn_type : String
  units : ℚ
  price : ℚ
  fees : ℚ
deriving DecidableEq, Repr

/-- An output row of `compute_holdings` (src/app.py:145). -/
structure Position where
  symbol : String
  asset_type : String
  units : ℚ
  avg_cost : ℚ
  invested : ℚ
  last : Option ℚ
  value : Option ℚ
  pnl : Option ℚ
  pnl_pct : Option ℚ
deriving DecidableEq, Repr

/-- An intermediate row of the `net` table after avg_cost/invested are
assigned (src/app.py:131-139). -/
structure NetRow where
  symbol : String
  asset_type : String
  units : ℚ
  avg_cost : ℚ
  invested : ℚ
deriving DecidableEq, Repr

/-- A row of the `price_snapshot` output (src/pricing.py:28,30). -/
structure PriceRow where
  symbol : String
  last : Option ℚ
  prev : Option ℚ
  chg : Option ℚ
  chg_pct : Option ℚ
deriving DecidableEq, Repr

/-- `price_snapshot` body for one symbol (src/pricing.py:20-30): on a
successful fetch, `last` is the final close (when any), `prev` the one
before it (when two or more), `chg`/`chg_pct` derived; on an exception
(`fetch s = none`) every field except the symbol is `None`. -/
def priceRow (fetch : String → Option (List ℚ)) (s : String) : PriceRow :=
  match fetch s with
  | none => ⟨s, none, none, none, none⟩
  | some close =>
    let last : Option ℚ := if close.length > 0 then close.getLast? else none
    let prev : Option ℚ := if close.length > 1 then close[close.length - 2]? else none
    let chg : Option ℚ :=
      match last, prev with
      | some l, some p => some (l - p)
      | _, _ => none
    let chg_pct : Option ℚ :=
      match last, prev with
      | some l, some p => if p ≠ 0 then some ((l / p - 1) * 100) else none
      | _, _ => none
    ⟨s, last, prev, chg, chg_pct⟩

/-- `price_snapshot(symbols)` (src/pricing.py:17-31): one `PriceRow` per
requested symbol, in request order. -/
def price_snapshot (fetch : String → Option (List ℚ)) (symbols : List String) :
    List PriceRow :=
  symbols.map (priceRow fetch)

/-- `str.upper()` on a symbol (src/app.py:126 and src/db.py:131):
uppercase every character (symbols are ASCII tickers). Executable form
of `String.toUpper`. -/
def upper (s : String) : String := ⟨s.data.map Char.toUpper⟩

/-- Normalization step of `compute_holdings` (src/app.py:126-127):
uppercase the symbol and remap SIP to BUY. -/
def normalizeTx (t : Transaction) : Transaction :=
  { t with
    symbol := upper t.symbol
    txn_type := if t.txn_type = "SIP" then "BUY" else t.txn_type }

/-- `signed_units` column (src/app.py:128), computed on the normalized
frame: SELL rows count negative, BUY rows positive, all others zero. -/
def signedUnits (t : Transaction) : ℚ :=
  if t.txn_type = "SELL" then -t.units
  else if t.txn_type = "BUY" then t.units
  else 0

/-- `cost` column of the `buys` frame (src/app.py:130). -/
def buyCost (t : Transaction) : ℚ := t.units * t.price + t.fees

/-- The grouping key of a (normalized) transaction: (`symbol`, `asset_type`). -/
def txKey (t : Transaction) : String × String := (t.symbol, t.asset_type)

/-- Strict lexicographic order on grouping keys, matching the sort order
of `groupby(["symbol","asset_type"])` (strings compared code point by
code point, as Python compares them). -/
def keyLT (a b : String × String) : Prop :=
  a.1.data < b.1.data ∨ (a.1 = b.1 ∧ a.2.data < b.2.data)

instance : DecidableRel keyLT := fun a b => by
  unfold keyLT; infer_instance

/-- Insert a key into a sorted list of distinct keys, keeping it sorted
and distinct. -/
def insertKeyD (k : String × String) : List (String × String) → List (String × String)
  | [] => [k]
  | k' :: rest =>
    if k = k' then k' :: rest
    else if keyLT k k' then k :: k' :: rest
    else k' :: insertKeyD k rest

/-- The distinct (`symbol`, `asset_type`) keys of a frame in groupby sort
order (src/app.py:132,135-136). -/
def groupKeys : List Transaction → List (String × String)
  | [] => []
  | t :: rest => insertKeyD (txKey t) (groupKeys rest)

/-- The rows of a frame belonging to one grouping key. -/
def keyTxs (df : List Transaction) (k : String × String) : List Transaction :=
  df.filter fun t => txKey t == k

/-- The `buys` sub-frame (src/app.py:129): BUY rows of the normalized
frame (SIP rows were remapped to BUY). -/
def buysOf (df : List Transaction) : List Transaction :=
  df.filter fun t => t.txn_type == "BUY"

/-- One row of the `net` table for key `k` (src/app.py:131-139): net
units are the sum of signed units over the key's rows; when the ledger
has no BUY rows at all, `avg_cost` and `invested` are set to 0 directly
(src/app.py:131-133); otherwise the BUY-only sums are merged in with
missing keys filled by 0, `avg_cost` guarded by `total_units > 0`, and
`invested = total_cost` (src/app.py:134-139). -/
def netRow (df : List Transaction) (k : String × String) : NetRow :=
  let units := ((keyTxs df k).map signedUnits).sum
  if (buysOf df).isEmpty then
    ⟨k.1, k.2, units, 0, 0⟩
  else
    let kb := keyTxs (buysOf df) k
    let total_units := (kb.map Transaction.units).sum
    let total_cost := (kb.map buyCost).sum
    ⟨k.1, k.2, units, if total_units > 0 then total_cost / total_units else 0, total_cost⟩

/-- The `net` table (src/app.py:131-139): one row per distinct key, in
groupby sort order. -/
def netRows (df : List Transaction) : List NetRow :=
  (groupKeys df).map (netRow df)

/-- Valuation columns of one output row (src/app.py:142-144): `value`,
`pnl` propagate an absent `last`; `pnl_pct` is `NaN` (absent) unless
`avg_cost > 0`. -/
def mkPos (r : NetRow) (last : Option ℚ) : Position :=
  { symbol := r.symbol
    asset_type := r.asset_type
    units := r.units
    avg_cost := r.avg_cost
    invested := r.invested
    last := last
    value := last.map fun l => r.units * l
    pnl := last.map fun l => (l - r.avg_cost) * r.units
    pnl_pct := if r.avg_cost > 0 then last.map fun l => (l / r.avg_cost - 1) * 100 else none }

/-- The symbol-keyed left merge of one `net` row against the snapshot
table (src/app.py:141): a left merge emits one output row per matching
snapshot row (and a single all-absent row when nothing matches). -/
def mergeRow (snaps : List PriceRow) (r : NetRow) : List Position :=
  let hits := snaps.filter fun p => p.symbol == r.symbol
  if hits.isEmpty then [mkPos r none]
  else hits.map fun p => mkPos r p.last

/-- Stable insertion sort by a `String` key; models the final
`sort_values("symbol")` (src/app.py:145). The merged table is already
sorted by symbol, so sorting is order-preserving there. -/
def insertBySym {α : Type} (key : α → String) (a : α) : List α → List α
  | [] => [a]
  | b :: rest =>
    if (key a).data ≤ (key b).data then a :: b :: rest
    else b :: insertBySym key a rest

/-- Sort a list by a `String` key (stable). -/
def sortBySym {α : Type} (key : α → String) : List α → List α
  | [] => []
  | a :: rest => insertBySym key a (sortBySym key rest)

/-- The argument of the `price_snapshot` call (src/app.py:140):
`net["symbol"].tolist()` — the symbol column of the grouped table, one
entry per (symbol, asset_type) group. -/
def callSyms (tx_df : List Transaction) : List String :=
  (netRows (tx_df.map normalizeTx)).map NetRow.symbol

/-- Lines 140-145 of src/app.py applied to the normalized frame: build
the `net` table, take one price snapshot for its symbol column, left
merge by symbol, compute valuation columns, sort by symbol. -/
def holdingsFrom (fetch : String → Option (List ℚ)) (df : List Transaction) :
    List Position :=
  let net := netRows df
  let snaps := price_snapshot fetch (net.map NetRow.symbol)
  sortBySym Position.symbol (net.flatMap (mergeRow snaps))

/-- `compute_holdings` (src/app.py:122-145). An empty ledger returns the
empty table immediately (src/app.py:123-124) without touching the price
gateway; otherwise the frame is normalized and lines 125-145 run. -/
def compute_holdings (fetch : String → Option (List ℚ)) (tx_df : List Transaction) :
    List Position :=
  if tx_df.isEmpty then []
  else holdingsFrom fetch (tx_df.map normalizeTx)

/-- The argument `compute_holdings` passes to `price_snapshot`: `none`
when the empty-ledger early return (src/app.py:123-124) skips the call,
otherwise the symbol column of the grouped table (src/app.py:140). -/
def priceCallArg (tx_df : List Transaction) : Option (List String) :=
  if tx_df.isEmpty then none else some (callSyms tx_df)

/-- The ledger-only fields of an output row: everything computed before
the price merge (key, net units, average cost, invested capital). -/
def baseFields (p : Position) : NetRow :=
  ⟨p.symbol, p.asset_type, p.units, p.avg_cost, p.invested⟩

/-- Gross BUY units recorded for key `k` in (normalized) frame `df`:
the `total_units` aggregate of src/app.py:135. -/
def buyUnitsSum (df : List Transaction) (k : String × String) : ℚ :=
  ((keyTxs (buysOf df) k).map Transaction.units).sum

/-- A price source for concrete instantiations: every fetch raises. -/
def noFetch : String → Option (List ℚ) := fun _ => none

/-! ## Order lemmas for grouping keys -/

lemma keyLT_irrefl (a : String × String) : ¬ keyLT a a := by
  unfold keyLT
  rintro (h | ⟨-, h⟩) <;> exact lt_irrefl _ h

lemma keyLT_trans {a b c : String × String} (hab : keyLT a b) (hbc : keyLT b c) :
    keyLT a c := by
  rcases hab with h1 | ⟨e1, h1⟩ <;> rcases hbc with h2 | ⟨e2, h2⟩
  · exact Or.inl (lt_trans h1 h2)
  · exact Or.inl (e2 ▸ h1)
  · exact Or.inl (e1 ▸ h2)
  · exact Or.inr ⟨e1.trans e2, lt_trans h1 h2⟩

lemma keyLT_trichotomy (a b : String × String) : keyLT a b ∨ a = b ∨ keyLT b a := by
  rcases lt_trichotomy a.1.data b.1.data with h | h | h
  · exact Or.inl (Or.inl h)
  · have he : a.1 = b.1 := String.ext h
    rcases lt_trichotomy a.2.data b.2.data with h2 | h2 | h2
    · exact Or.inl (Or.inr ⟨he, h2⟩)
    · exact Or.inr (Or.inl (Prod.ext he (String.ext h2)))
    · exact Or.inr (Or.inr (Or.inr ⟨he.symm, h2⟩))
  · exact Or.inr (Or.inr (Or.inl h))

lemma mem_insertKeyD (x k : String × String) (l : List (String × String)) :
    x ∈ insertKeyD k l ↔ x = k ∨ x ∈ l := by
  induction l with
  | nil => simp [insertKeyD]
  | cons k2 rest ih =>
    unfold insertKeyD
    by_cases h1 : k = k2
    · subst h1
      rw [if_pos rfl]
      simp only [List.mem_cons]
      tauto
    · rw [if_neg h1]
      by_cases h2 : keyLT k k2
      · rw [if_pos h2]
        simp only [List.mem_cons]
      · rw [if_neg h2]
        simp only [List.mem_cons, ih]
        tauto

lemma pairwise_insertKeyD (k : String × String) (l : List (String × String))
    (hl : l.Pairwise keyLT) : (insertKeyD k l).Pairwise keyLT := by
  induction l with
  | nil => simp [insertKeyD]
  | cons k2 rest ih =>
    rcases List.pairwise_cons.mp hl with ⟨hk2, hrest⟩
    unfold insertKeyD
    by_cases h1 : k = k2
    · rw [if_pos h1]; exact hl
    · rw [if_neg h1]
      by_cases h2 : keyLT k k2
      · rw [if_pos h2]
        refine List.pairwise_cons.mpr ⟨?_, hl⟩
        intro y hy
        rcases List.mem_cons.mp hy with rfl | hy2
        · exact h2
        · exact keyLT_trans h2 (hk2 y hy2)
      · rw [if_neg h2]
        refine List.pairwise_cons.mpr ⟨?_, ih hrest⟩
        intro y hy
        rcases (mem_insertKeyD y k rest).mp hy with rfl | hy2
        · rcases keyLT_trichotomy k2 y with h | h | h
          · exact h
          · exact absurd h.symm h1
          · exact absurd h h2
        · exact hk2 y hy2

lemma pairwise_groupKeys (df : List Transaction) : (groupKeys df).Pairwise keyLT := by
  induction df with
  | nil => simp [groupKeys]
  | cons t rest ih => exact pairwise_insertKeyD _ _ ih

lemma mem_groupKeys (k : String × String) (df : List Transaction) :
    k ∈ groupKeys df ↔ ∃ t ∈ df, txKey t = k := by
  induction df with
  | nil => simp [groupKeys]
  | cons t rest ih =>
    simp only [groupKeys, mem_insertKeyD, ih, List.mem_cons]
    constructor
    · rintro (rfl | ⟨u, hu, rfl⟩)
      · exact ⟨t, Or.inl rfl, rfl⟩
      · exact ⟨u, Or.inr hu, rfl⟩
    · rintro ⟨u, (rfl | hu), rfl⟩
      · exact Or.inl rfl
      · exact Or.inr ⟨u, hu, rfl⟩

lemma eq_of_pairwise_keyLT {l1 : List (String × String)} :
    ∀ {l2 : List (String × String)}, l1.Pairwise keyLT → l2.Pairwise keyLT →
      (∀ x, x ∈ l1 ↔ x ∈ l2) → l1 = l2 := by
  induction l1 with
  | nil =>
    intro l2 _ _ hmem
    cases l2 with
    | nil => rfl
    | cons b l2 => exact absurd ((hmem b).mpr (List.mem_cons_self b l2)) (List.not_mem_nil b)
  | cons a l1 ih =>
    intro l2 h1 h2 hmem
    cases l2 with
    | nil => exact absurd ((hmem a).mp (List.mem_cons_self a l1)) (List.not_mem_nil a)
    | cons b l2 =>
      rcases List.pairwise_cons.mp h1 with ⟨ha, h1t⟩
      rcases List.pairwise_cons.mp h2 with ⟨hb, h2t⟩
      have hab : a = b := by
        rcases List.mem_cons.mp ((hmem a).mp (List.mem_cons_self a l1)) with h | h
        · exact h
        · rcases List.mem_cons.mp ((hmem b).mpr (List.mem_cons_self b l2)) with h3 | h3
          · exact h3.symm
          · exact absurd (keyLT_trans (ha b h3) (hb a h)) (keyLT_irrefl a)
      subst hab
      congr 1
      apply ih h1t h2t
      intro x
      constructor
      · intro hx
        rcases List.mem_cons.mp ((hmem x).mp (List.mem_cons_of_mem a hx)) with rfl | h
        · exact absurd (ha x hx) (keyLT_irrefl x)
        · exact h
      · intro hx
        rcases List.mem_cons.mp ((hmem x).mpr (List.mem_cons_of_mem a hx)) with rfl | h
        · exact absurd (hb x hx) (keyLT_irrefl x)
        · exact h

/-! ## Sorting lemmas -/

lemma mem_insertBySym {α : Type} (key : α → String) (a x : α) (l : List α) :
    x ∈ insertBySym key a l ↔ x = a ∨ x ∈ l := by
  induction l with
  | nil => simp [insertBySym]
  | cons b rest ih =>
    unfold insertBySym
    by_cases h : (key a).data ≤ (key b).data
    · rw [if_pos h]
      simp only [List.mem_cons]
    · rw [if_neg h]
      simp only [List.mem_cons, ih]
      tauto

lemma mem_sortBySym {α : Type} (key : α → String) (x : α) (l : List α) :
    x ∈ sortBySym key l ↔ x ∈ l := by
  induction l with
  | nil => simp [sortBySym]
  | cons a rest ih =>
    simp only [sortBySym, mem_insertBySym, ih, List.mem_cons]

lemma map_insertBySym {α β : Type} (key : α → String) (key2 : β → String)
    (f : α → β) (hf : ∀ x, key2 (f x) = key x) (a : α) (l : List α) :
    (insertBySym key a l).map f = insertBySym key2 (f a) (l.map f) := by
  induction l with
  | nil => rfl
  | cons b rest ih =>
    simp only [insertBySym, List.map_cons, hf]
    by_cases h : (key a).data ≤ (key b).data
    · rw [if_pos h, if_pos h]
      rfl
    · rw [if_neg h, if_neg h]
      simp only [List.map_cons, ih]

lemma map_sortBySym {α β : Type} (key : α → String) (key2 : β → String)
    (f : α → β) (hf : ∀ x, key2 (f x) = key x) (l : List α) :
    (sortBySym key l).map f = sortBySym key2 (l.map f) := by
  induction l with
  | nil => rfl
  | cons a rest ih =>
    simp only [sortBySym, List.map_cons]
    rw [map_insertBySym key key2 f hf, ih]

/-! ## Snapshot and merge lemmas -/

lemma priceRow_symbol (fetch : String → Option (List ℚ)) (s : String) :
    (priceRow fetch s).symbol = s := by
  cases h : fetch s <;> simp [priceRow, h]

lemma mergeRow_hits (fetch : String → Option (List ℚ)) (syms : List String)
    (r : NetRow) :
    ((price_snapshot fetch syms).filter fun p => p.symbol == r.symbol)
      = (syms.filter fun s => s == r.symbol).map (priceRow fetch) := by
  unfold price_snapshot
  rw [List.filter_map]
  congr 1
  apply List.filter_congr
  intro s _
  simp [Function.comp, priceRow_symbol]

lemma baseFields_mkPos (r : NetRow) (lo : Option ℚ) : baseFields (mkPos r lo) = r := rfl

lemma mem_mergeRow {snaps : List PriceRow} {r : NetRow} {p : Position}
    (hp : p ∈ mergeRow snaps r) : ∃ lo, p = mkPos r lo := by
  unfold mergeRow at hp
  by_cases h : (snaps.filter fun q => q.symbol == r.symbol).isEmpty
  · rw [if_pos h] at hp
    exact ⟨none, by simpa using hp⟩
  · rw [if_neg h] at hp
    rcases List.mem_map.mp hp with ⟨q, hq, rfl⟩
    exact ⟨q.last, rfl⟩

lemma mergeRow_ne_nil (snaps : List PriceRow) (r : NetRow) : mergeRow snaps r ≠ [] := by
  unfold mergeRow
  by_cases h : (snaps.filter fun q => q.symbol == r.symbol).isEmpty
  · rw [if_pos h]
    simp
  · rw [if_neg h]
    intro hc
    rw [List.map_eq_nil_iff] at hc
    rw [hc] at h
    simp at h

lemma mem_mergeRow_snapshot {fetch : String → Option (List ℚ)} {syms : List String}
    {r : NetRow} {p : Position}
    (hp : p ∈ mergeRow (price_snapshot fetch syms) r) :
    p = mkPos r none ∨ p = mkPos r (priceRow fetch r.symbol).last := by
  unfold mergeRow at hp
  rw [mergeRow_hits] at hp
  by_cases h : ((syms.filter fun s => s == r.symbol).map (priceRow fetch)).isEmpty
  · rw [if_pos h] at hp
    exact Or.inl (by simpa using hp)
  · rw [if_neg h] at hp
    rcases List.mem_map.mp hp with ⟨q, hq, rfl⟩
    rcases List.mem_map.mp hq with ⟨s, hs, rfl⟩
    have : s = r.symbol := by simpa using (List.mem_filter.mp hs).2
    subst this
    exact Or.inr rfl

lemma mergeRow_map_baseFields (fetch : String → Option (List ℚ)) (syms : List String)
    (r : NetRow) (h : r.symbol ∈ syms) :
    (mergeRow (price_snapshot fetch syms) r).map baseFields
      = List.replicate ((syms.filter fun s => s == r.symbol).length) r := by
  unfold mergeRow
  rw [mergeRow_hits]
  have hne : (syms.filter fun s => s == r.symbol) ≠ [] := by
    simp only [ne_eq, List.filter_eq_nil_iff, not_forall]
    exact ⟨r.symbol, h, by simp⟩
  have hne2 : ¬ ((syms.filter fun s => s == r.symbol).map (priceRow fetch)).isEmpty := by
    simpa [List.isEmpty_iff, List.map_eq_nil_iff] using hne
  rw [if_neg hne2, List.map_map, List.map_map]
  have hc : ((baseFields ∘ fun p => mkPos r p.last) ∘ priceRow fetch)
      = fun _ : String => r := rfl
  rw [hc, List.map_const']

/-! ## Net-table lemmas -/

lemma netRow_symbol (df : List Transaction) (k : String × String) :
    (netRow df k).symbol = k.1 := by
  unfold netRow
  by_cases h : (buysOf df).isEmpty <;> simp [h]

lemma netRow_key2 (df : List Transaction) (k : String × String) :
    (netRow df k).asset_type = k.2 := by
  unfold netRow
  by_cases h : (buysOf df).isEmpty <;> simp [h]

lemma mem_netRows {df : List Transaction} {r : NetRow} :
    r ∈ netRows df ↔ ∃ k ∈ groupKeys df, r = netRow df k := by
  unfold netRows
  simp only [List.mem_map]
  constructor
  · rintro ⟨k, hk, rfl⟩
    exact ⟨k, hk, rfl⟩
  · rintro ⟨k, hk, rfl⟩
    exact ⟨k, hk, rfl⟩

lemma mem_compute_holdings {fetch : String → Option (List ℚ)}
    {tx_df : List Transaction} {p : Position}
    (hp : p ∈ compute_holdings fetch tx_df) :
    ∃ k ∈ groupKeys (tx_df.map normalizeTx), ∃ lo,
      p = mkPos (netRow (tx_df.map normalizeTx) k) lo := by
  unfold compute_holdings at hp
  by_cases he : tx_df.isEmpty
  · rw [if_pos he] at hp
    simp at hp
  · rw [if_neg he] at hp
    unfold holdingsFrom at hp
    rw [mem_sortBySym] at hp
    rcases List.mem_flatMap.mp hp with ⟨r, hr, hpr⟩
    rcases mem_netRows.mp hr with ⟨k, hk, rfl⟩
    rcases mem_mergeRow hpr with ⟨lo, rfl⟩
    exact ⟨k, hk, lo, rfl⟩

/-- The ledger-only part of the output table: what `compute_holdings`
produces before (and independently of) the price merge. -/
def baseTable (tx_df : List Transaction) : List NetRow :=
  if tx_df.isEmpty then []
  else
    let net := netRows (tx_df.map normalizeTx)
    let syms := net.map NetRow.symbol
    sortBySym NetRow.symbol
      (net.flatMap fun r => List.replicate ((syms.filter fun s => s == r.symbol).length) r)

lemma compute_holdings_map_baseFields (fetch : String → Option (List ℚ))
    (tx_df : List Transaction) :
    (compute_holdings fetch tx_df).map baseFields = baseTable tx_df := by
  unfold compute_holdings baseTable
  by_cases he : tx_df.isEmpty
  · rw [if_pos he, if_pos he]
    rfl
  · rw [if_neg he, if_neg he]
    unfold holdingsFrom
    rw [map_sortBySym Position.symbol NetRow.symbol baseFields (fun x => rfl),
      List.map_flatMap]
    congr 1
    apply List.flatMap_congr
    intro r hr
    exact mergeRow_map_baseFields fetch _ r (List.mem_map_of_mem NetRow.symbol hr)

/-! ## Concrete inputs used to instantiate the claims -/

/-- A BUY of 10 units at price 100 with fees 5 followed by a SELL of 4
units at price 120, on a single (symbol, asset_type) key. -/
def ledgerC1 : List Transaction :=
  [⟨"AAPL", "stock", "BUY", 10, 100, 5⟩, ⟨"AAPL", "stock", "SELL", 4, 120, 0⟩]

/-- A ledger whose single symbol appears under two asset types (entered
once in lower case to exercise case folding). -/
def ledgerDup : List Transaction :=
  [⟨"aapl", "etf", "BUY", 2, 10, 0⟩, ⟨"AAPL", "stock", "BUY", 1, 10, 0⟩]

/-- A one-row ledger: a SELL with no recorded BUY. -/
def ledgerW : List Transaction := [⟨"TCS", "stock", "SELL", 2, 50, 0⟩]

/-- The single output row of `compute_holdings noFetch ledgerW`. -/
def posW : Position := ⟨"TCS", "stock", -2, 0, 0, none, none, none, none⟩

/-- A DIV transaction on the `ledgerW` key, with nonzero units, price
and fees. -/
def divW : Transaction := ⟨"tcs", "stock", "DIV", 100, 9, 9⟩

/-- A one-row ledger containing only a DIV transaction. -/
def ledgerDiv : List Transaction := [⟨"infy", "stock", "DIV", 3, 7, 1⟩]

/-! ## Claims -/

unseal Rat.add Rat.mul Rat.inv Rat.sub in
/-- Claim C1: for a ledger containing, for a single (symbol, asset_type)
key, a BUY of 10 units at price 100 with fees 5 followed by a SELL of 4
units at price 120, `compute_holdings` returns a Position for that key
with net units = 6, invested = 1005, and avg_cost = 100.5 — whatever the
price lookup returns. -/
theorem C1_buy_sell_position (fetch : String → Option (List ℚ)) :
    (compute_holdings fetch ledgerC1).map baseFields
      = [⟨"AAPL", "stock", 6, 201 / 2, 1005⟩] := by
  rw [compute_holdings_map_baseFields]
  decide

/-- Claim C9: for the empty transaction sequence, `compute_holdings`
returns the empty Position sequence (src/app.py:123-124) and the price
lookup is never called (`priceCallArg` is `none`); being a total
function, the embedded engine cannot raise. -/
theorem C9_empty_ledger (fetch : String → Option (List ℚ)) :
    compute_holdings fetch [] = [] ∧ priceCallArg [] = none :=
  ⟨rfl, rfl⟩

/-- Claim C8: `price_snapshot` tolerates unknown or delisted symbols
without failing the batch: its output carries exactly the requested
symbols in order; the entry at position `i` is exactly
`priceRow fetch s` for the symbol `s` requested there — so it depends
only on the fetch outcome for that one symbol, and one symbol's failure
cannot affect the others — and when the fetch for `s` fails, `last` and
`prev` of that entry are absent. -/
theorem C8_snapshot_tolerates_failures (fetch : String → Option (List ℚ))
    (symbols : List String) :
    (price_snapshot fetch symbols).map PriceRow.symbol = symbols ∧
      ∀ (i : Nat) (s : String), symbols[i]? = some s →
        (price_snapshot fetch symbols)[i]? = some (priceRow fetch s) ∧
          (fetch s = none →
            (priceRow fetch s).last = none ∧ (priceRow fetch s).prev = none) := by
  constructor
  · show (symbols.map (priceRow fetch)).map PriceRow.symbol = symbols
    rw [List.map_map]
    have hps : ∀ s ∈ symbols, (PriceRow.symbol ∘ priceRow fetch) s = id s :=
      fun s _ => priceRow_symbol fetch s
    rw [List.map_congr_left hps, List.map_id]
  · intro i s hs
    refine ⟨?_, ?_⟩
    · unfold price_snapshot
      rw [List.getElem?_map, hs]
      rfl
    · intro hf
      constructor <;> simp [priceRow, hf]

/-- Witness for C8 at a concrete failing symbol. -/
theorem C8_witness :
    (price_snapshot noFetch ["ZZZ"]).map PriceRow.symbol = ["ZZZ"] ∧
      (price_snapshot noFetch ["ZZZ"])[0]? = some (priceRow noFetch "ZZZ") ∧
      (priceRow noFetch "ZZZ").last = none ∧ (priceRow noFetch "ZZZ").prev = none :=
  ⟨(C8_snapshot_tolerates_failures noFetch ["ZZZ"]).1,
    ((C8_snapshot_tolerates_failures noFetch ["ZZZ"]).2 0 "ZZZ" rfl).1,
    ((C8_snapshot_tolerates_failures noFetch ["ZZZ"]).2 0 "ZZZ" rfl).2 rfl⟩

/-- Claim C2: the engine's divisions are guarded, so `compute_holdings`
(a total function of the embedded ledger) never fails at runtime: for
every output row, when the BUY-units sum of its key is not positive, its
`avg_cost` is 0 (the guard of src/app.py:138, or the no-BUY branch of
src/app.py:131-133), and when its `avg_cost` is not positive, its
`pnl_pct` is absent (the guard of src/app.py:144). -/
theorem C2_division_guards (fetch : String → Option (List ℚ))
    (tx_df : List Transaction) (p : Position)
    (hp : p ∈ compute_holdings fetch tx_df) :
    (¬ 0 < p.avg_cost → p.pnl_pct = none) ∧
      (buyUnitsSum (tx_df.map normalizeTx) (p.symbol, p.asset_type) ≤ 0 →
        p.avg_cost = 0) := by
  rcases mem_compute_holdings hp with ⟨k, hk, lo, rfl⟩
  constructor
  · intro hneg
    show (if (netRow (tx_df.map normalizeTx) k).avg_cost > 0
        then lo.map fun l => (l / (netRow (tx_df.map normalizeTx) k).avg_cost - 1) * 100
        else none) = none
    exact if_neg hneg
  · intro hle
    show (netRow (tx_df.map normalizeTx) k).avg_cost = 0
    have hkey : ((mkPos (netRow (tx_df.map normalizeTx) k) lo).symbol,
        (mkPos (netRow (tx_df.map normalizeTx) k) lo).asset_type) = k := by
      show ((netRow (tx_df.map normalizeTx) k).symbol,
        (netRow (tx_df.map normalizeTx) k).asset_type) = k
      rw [netRow_symbol, netRow_key2]
    rw [hkey] at hle
    unfold netRow
    by_cases hb : (buysOf (tx_df.map normalizeTx)).isEmpty
    · rw [if_pos hb]
    · rw [if_neg hb]
      show (if buyUnitsSum (tx_df.map normalizeTx) k > 0
          then _ / buyUnitsSum (tx_df.map normalizeTx) k else 0) = 0
      exact if_neg (not_lt.mpr hle)

unseal Rat.add Rat.mul Rat.inv Rat.sub in
/-- Witness for C2 on a concrete sell-without-buy ledger. -/
theorem C2_witness :
    posW ∈ compute_holdings noFetch ledgerW ∧
      ((¬ 0 < posW.avg_cost → posW.pnl_pct = none) ∧
        (buyUnitsSum (ledgerW.map normalizeTx) (posW.symbol, posW.asset_type) ≤ 0 →
          posW.avg_cost = 0)) :=
  ⟨by decide, C2_division_guards noFetch ledgerW posW (by decide)⟩

lemma mem_compute_holdings_price {fetch : String → Option (List ℚ)}
    {tx_df : List Transaction} {p : Position}
    (hp : p ∈ compute_holdings fetch tx_df) :
    ∃ k ∈ groupKeys (tx_df.map normalizeTx),
      (p = mkPos (netRow (tx_df.map normalizeTx) k) none ∨
        p = mkPos (netRow (tx_df.map normalizeTx) k)
          (priceRow fetch (netRow (tx_df.map normalizeTx) k).symbol).last) := by
  unfold compute_holdings at hp
  by_cases he : tx_df.isEmpty
  · rw [if_pos he] at hp
    simp at hp
  · rw [if_neg he] at hp
    unfold holdingsFrom at hp
    rw [mem_sortBySym] at hp
    rcases List.mem_flatMap.mp hp with ⟨r, hr, hpr⟩
    rcases mem_netRows.mp hr with ⟨k, hk, rfl⟩
    exact ⟨k, hk, mem_mergeRow_snapshot hpr⟩

/-- Claim C3: when the price lookup resolves no price for a symbol
(absent `last` in its snapshot row), every Position of that symbol has
`last`, `value`, `pnl` and `pnl_pct` absent; and the ledger-only fields
(`units`, `avg_cost`, `invested`, with their keys) are identical under
every price-lookup outcome. -/
theorem C3_absent_price_isolation (fetch fetch2 : String → Option (List ℚ))
    (tx_df : List Transaction) :
    (∀ p ∈ compute_holdings fetch tx_df,
        (priceRow fetch p.symbol).last = none →
          p.last = none ∧ p.value = none ∧ p.pnl = none ∧ p.pnl_pct = none) ∧
      (compute_holdings fetch tx_df).map baseFields
        = (compute_holdings fetch2 tx_df).map baseFields := by
  constructor
  · intro p hp hlast
    rcases mem_compute_holdings_price hp with ⟨k, hk, hcase⟩
    have hnone : p = mkPos (netRow (tx_df.map normalizeTx) k) none := by
      rcases hcase with h | h
      · exact h
      · rw [h]
        rw [show (priceRow fetch (netRow (tx_df.map normalizeTx) k).symbol).last = none
          from by rw [h] at hlast; exact hlast]
    rw [hnone]
    refine ⟨rfl, rfl, rfl, ?_⟩
    simp only [mkPos]
    split <;> rfl
  · rw [compute_holdings_map_baseFields, compute_holdings_map_baseFields]

unseal Rat.add Rat.mul Rat.inv Rat.sub in
/-- Witness for C3 on a concrete ledger and a failing price source. -/
theorem C3_witness :
    posW ∈ compute_holdings noFetch ledgerW ∧
      (priceRow noFetch posW.symbol).last = none ∧
      (posW.last = none ∧ posW.value = none ∧ posW.pnl = none ∧
        posW.pnl_pct = none) :=
  ⟨by decide, by decide,
    (C3_absent_price_isolation noFetch noFetch ledgerW).1 posW (by decide) (by decide)⟩

unseal Rat.add Rat.mul Rat.inv Rat.sub in
/-- Claim C4 (code bug evaluation): positions are meant to be keyed by
(uppercased symbol, asset_type) with exactly one output row per distinct
pair. Case folding and key separation do hold in the grouping stage, but
when one symbol appears under two asset types the snapshot table carries
that symbol once per group, and the symbol-keyed left merge of
src/app.py:141 then duplicates every row of that symbol: on `ledgerDup`
(one symbol under asset types "etf" and "stock") the pair
("AAPL", "stock") appears twice and the output has four rows, not two. -/
theorem C4_duplicated_pair_rows :
    ((compute_holdings noFetch ledgerDup).filter
        fun p => p.symbol == "AAPL" && p.asset_type == "stock").length = 2 ∧
      (compute_holdings noFetch ledgerDup).length = 4 := by
  constructor
  · decide
  · decide

lemma mem_callSyms (tx_df : List Transaction) (s : String) :
    s ∈ callSyms tx_df ↔ s ∈ tx_df.map fun t => upper t.symbol := by
  unfold callSyms netRows
  rw [List.map_map]
  have hcomp : ∀ k ∈ groupKeys (tx_df.map normalizeTx),
      (NetRow.symbol ∘ netRow (tx_df.map normalizeTx)) k = k.1 :=
    fun k _ => netRow_symbol _ k
  rw [List.map_congr_left hcomp]
  constructor
  · intro hs
    rcases List.mem_map.mp hs with ⟨k, hk, rfl⟩
    rcases (mem_groupKeys k _).mp hk with ⟨t, ht, rfl⟩
    rcases List.mem_map.mp ht with ⟨u, hu, rfl⟩
    exact List.mem_map.mpr ⟨u, hu, rfl⟩
  · intro hs
    rcases List.mem_map.mp hs with ⟨u, hu, rfl⟩
    refine List.mem_map.mpr ⟨txKey (normalizeTx u), ?_, rfl⟩
    exact (mem_groupKeys _ _).mpr ⟨normalizeTx u, List.mem_map_of_mem _ hu, rfl⟩

unseal Rat.add Rat.mul Rat.inv Rat.sub in
/-- Claim C5, counterexample: on `ledgerDup` the engine's single price
call receives the symbol column of the grouping — ["AAPL", "AAPL"] —
which repeats a symbol, contradicting "the full distinct set of symbols
... not a list with repeated symbols". -/
theorem C5_counterexample_repeated_argument :
    priceCallArg ledgerDup = some ["AAPL", "AAPL"] ∧
      ¬ (["AAPL", "AAPL"] : List String).Nodup := by
  constructor
  · decide
  · decide

/-- Claim C5 (amended): on every invocation with a non-empty ledger the
engine makes a single batched price call, and its whole output is
determined by the one snapshot taken at `callSyms tx_df` — the symbol
column of the per-(symbol, asset_type) grouping, one entry per group:
it covers exactly the distinct uppercased symbols of the ledger, but
repeats a symbol once per asset_type it appears under rather than being
duplicate-free. -/
theorem C5_single_call_group_column (fetch : String → Option (List ℚ))
    (tx_df : List Transaction) (hne : ¬ tx_df.isEmpty) :
    priceCallArg tx_df = some (callSyms tx_df) ∧
      compute_holdings fetch tx_df
        = sortBySym Position.symbol
            ((netRows (tx_df.map normalizeTx)).flatMap
              (mergeRow (price_snapshot fetch (callSyms tx_df)))) ∧
      (∀ s, s ∈ callSyms tx_df ↔ s ∈ tx_df.map fun t => upper t.symbol) := by
  refine ⟨?_, ?_, fun s => mem_callSyms tx_df s⟩
  · unfold priceCallArg
    rw [if_neg hne]
  · unfold compute_holdings
    rw [if_neg hne]
    rfl

unseal Rat.add Rat.mul Rat.inv Rat.sub in
/-- Witness for C5 (amended) on a concrete non-empty ledger. -/
theorem C5_witness :
    (¬ ledgerW.isEmpty = true) ∧ priceCallArg ledgerW = some (callSyms ledgerW) :=
  ⟨by decide, (C5_single_call_group_column noFetch ledgerW (by decide)).1⟩

/-- Replace one SIP transaction by its BUY form (the remap of
src/app.py:127 applied to a single row). -/
def sipToBuy (t : Transaction) : Transaction :=
  if t.txn_type = "SIP" then { t with txn_type := "BUY" } else t

/-- Apply `sipToBuy` to the rows selected by `sel` (by position,
starting at index `i`): an arbitrary subset of the ledger. -/
def remapSip (sel : Nat → Bool) : Nat → List Transaction → List Transaction
  | _, [] => []
  | i, t :: rest => (if sel i then sipToBuy t else t) :: remapSip sel (i + 1) rest

lemma normalizeTx_sipToBuy (t : Transaction) :
    normalizeTx (sipToBuy t) = normalizeTx t := by
  unfold sipToBuy normalizeTx
  by_cases h : t.txn_type = "SIP" <;> simp [h]

lemma remapSip_map_normalizeTx (sel : Nat → Bool) (l : List Transaction) :
    ∀ i : Nat, (remapSip sel i l).map normalizeTx = l.map normalizeTx := by
  induction l with
  | nil => intro i; rfl
  | cons t rest ih =>
    intro i
    simp only [remapSip, List.map_cons, ih]
    congr 1
    by_cases h : sel i <;> simp [h, normalizeTx_sipToBuy]

lemma remapSip_isEmpty (sel : Nat → Bool) (i : Nat) (l : List Transaction) :
    (remapSip sel i l).isEmpty = l.isEmpty := by
  cases l <;> rfl

/-- Claim C6: replacing the txn_type SIP by BUY in any subset of the
ledger's rows (selected by position) leaves the output of
`compute_holdings` unchanged: a SIP row contributes +units and
units × price + fees to the cost basis exactly as a BUY row does. -/
theorem C6_sip_equals_buy (fetch : String → Option (List ℚ))
    (sel : Nat → Bool) (tx_df : List Transaction) :
    compute_holdings fetch (remapSip sel 0 tx_df) = compute_holdings fetch tx_df := by
  unfold compute_holdings
  rw [remapSip_isEmpty, remapSip_map_normalizeTx]

lemma buysOf_append_irrelevant (df : List Transaction) (u : Transaction)
    (hbu : u.txn_type ≠ "BUY") : buysOf (df ++ [u]) = buysOf df := by
  unfold buysOf
  rw [List.filter_append]
  have h1 : List.filter (fun t => t.txn_type == "BUY") [u] = [] := by
    simp [hbu]
  rw [h1, List.append_nil]

lemma netRow_append_irrelevant (df : List Transaction) (u : Transaction)
    (hsu : signedUnits u = 0) (hbu : u.txn_type ≠ "BUY") (k : String × String) :
    netRow (df ++ [u]) k = netRow df k := by
  have hb : buysOf (df ++ [u]) = buysOf df := buysOf_append_irrelevant df u hbu
  have hu : ((keyTxs (df ++ [u]) k).map signedUnits).sum
      = ((keyTxs df k).map signedUnits).sum := by
    unfold keyTxs
    rw [List.filter_append, List.map_append, List.sum_append]
    have h0 : ((List.filter (fun t => txKey t == k) [u]).map signedUnits).sum = 0 := by
      by_cases h : txKey u == k <;> simp [List.filter_singleton, h, hsu]
    rw [h0, add_zero]
  unfold netRow
  rw [hb, hu]

lemma groupKeys_append_mem (df : List Transaction) (u : Transaction)
    (hk : txKey u ∈ groupKeys df) : groupKeys (df ++ [u]) = groupKeys df := by
  apply eq_of_pairwise_keyLT (pairwise_groupKeys _) (pairwise_groupKeys _)
  intro x
  rw [mem_groupKeys, mem_groupKeys]
  constructor
  · rintro ⟨t, ht, rfl⟩
    rcases List.mem_append.mp ht with h | h
    · exact ⟨t, h, rfl⟩
    · rw [List.mem_singleton] at h
      subst h
      exact (mem_groupKeys (txKey t) df).mp hk
  · rintro ⟨t, ht, rfl⟩
    exact ⟨t, List.mem_append_left _ ht, rfl⟩

lemma netRows_append_irrelevant (df : List Transaction) (u : Transaction)
    (hsu : signedUnits u = 0) (hbu : u.txn_type ≠ "BUY")
    (hk : txKey u ∈ groupKeys df) : netRows (df ++ [u]) = netRows df := by
  unfold netRows
  rw [groupKeys_append_mem df u hk]
  exact List.map_congr_left fun k _ => netRow_append_irrelevant df u hsu hbu k

/-- Claim C7: a DIV transaction, or one whose txn_type is outside
{BUY, SELL, DIV, SIP}, contributes zero signed units and nothing to the
cost basis: appending it for an already-present (symbol, asset_type)
key leaves every Position's key, `units`, `avg_cost` and `invested`
unchanged, regardless of the transaction's units, price and fees. -/
theorem C7_zero_impact_append (fetch : String → Option (List ℚ))
    (tx_df : List Transaction) (t : Transaction)
    (hb : t.txn_type ≠ "BUY") (hs : t.txn_type ≠ "SELL") (hsip : t.txn_type ≠ "SIP")
    (hk : (upper t.symbol, t.asset_type) ∈ groupKeys (tx_df.map normalizeTx)) :
    (compute_holdings fetch (tx_df ++ [t])).map baseFields
      = (compute_holdings fetch tx_df).map baseFields := by
  have hne : ¬ tx_df.isEmpty := by
    intro he
    rw [List.isEmpty_iff] at he
    subst he
    simp [groupKeys] at hk
  have htt : (normalizeTx t).txn_type = t.txn_type := by
    simp [normalizeTx, hsip]
  have hsu : signedUnits (normalizeTx t) = 0 := by
    unfold signedUnits
    rw [htt, if_neg hs, if_neg hb]
  have hbu : (normalizeTx t).txn_type ≠ "BUY" := by
    rw [htt]
    exact hb
  have hnr : netRows ((tx_df ++ [t]).map normalizeTx)
      = netRows (tx_df.map normalizeTx) := by
    have hmap : (tx_df ++ [t]).map normalizeTx
        = tx_df.map normalizeTx ++ [normalizeTx t] := by
      rw [List.map_append]
      rfl
    rw [hmap]
    exact netRows_append_irrelevant _ _ hsu hbu hk
  have hfull : compute_holdings fetch (tx_df ++ [t]) = compute_holdings fetch tx_df := by
    unfold compute_holdings
    rw [if_neg hne, if_neg (by simp : ¬ (tx_df ++ [t]).isEmpty = true)]
    unfold holdingsFrom
    rw [hnr]
  rw [hfull]

unseal Rat.add Rat.mul Rat.inv Rat.sub in
/-- Witness for C7: appending a DIV row with nonzero units, price and
fees on an existing key leaves the ledger-only columns unchanged. -/
theorem C7_witness :
    (divW.txn_type ≠ "BUY" ∧ divW.txn_type ≠ "SELL" ∧ divW.txn_type ≠ "SIP") ∧
      (upper divW.symbol, divW.asset_type) ∈ groupKeys (ledgerW.map normalizeTx) ∧
      (compute_holdings noFetch (ledgerW ++ [divW])).map baseFields
        = (compute_holdings noFetch ledgerW).map baseFields :=
  ⟨by decide, by decide,
    C7_zero_impact_append noFetch ledgerW divW (by decide) (by decide) (by decide)
      (by decide)⟩

lemma mergeRow_mem_compute_holdings {fetch : String → Option (List ℚ)}
    {tx_df : List Transaction} (hne : ¬ tx_df.isEmpty)
    {r : NetRow} (hr : r ∈ netRows (tx_df.map normalizeTx)) {p : Position}
    (hp : p ∈ mergeRow
      (price_snapshot fetch ((netRows (tx_df.map normalizeTx)).map NetRow.symbol)) r) :
    p ∈ compute_holdings fetch tx_df := by
  unfold compute_holdings
  rw [if_neg hne]
  unfold holdingsFrom
  rw [mem_sortBySym]
  exact List.mem_flatMap.mpr ⟨r, hr, hp⟩

/-- Claim C10: a (symbol, asset_type) key whose transactions are all DIV
(or all of unrecognized kinds — anything outside BUY/SELL/SIP) still
yields a Position row in the output, with units = 0, avg_cost = 0 and
invested = 0: zero-impact kinds create rows rather than being filtered
out. -/
theorem C10_zero_impact_key_rows (fetch : String → Option (List ℚ))
    (tx_df : List Transaction) (k : String × String)
    (hk : k ∈ groupKeys (tx_df.map normalizeTx))
    (hall : ∀ u ∈ tx_df, (upper u.symbol, u.asset_type) = k →
      u.txn_type ≠ "BUY" ∧ u.txn_type ≠ "SELL" ∧ u.txn_type ≠ "SIP") :
    ∃ p ∈ compute_holdings fetch tx_df,
      p.symbol = k.1 ∧ p.asset_type = k.2 ∧ p.units = 0 ∧ p.avg_cost = 0 ∧
        p.invested = 0 := by
  have hne : ¬ tx_df.isEmpty := by
    intro he
    rw [List.isEmpty_iff] at he
    subst he
    simp [groupKeys] at hk
  have hz : ∀ t ∈ keyTxs (tx_df.map normalizeTx) k, signedUnits t = 0 := by
    intro t ht
    rcases List.mem_filter.mp ht with ⟨htmem, htk⟩
    rcases List.mem_map.mp htmem with ⟨u, hu, rfl⟩
    have hk2 : (upper u.symbol, u.asset_type) = k := by
      simpa [txKey] using htk
    rcases hall u hu hk2 with ⟨hb, hs, hsip⟩
    have htt : (normalizeTx u).txn_type = u.txn_type := by
      simp [normalizeTx, hsip]
    unfold signedUnits
    rw [htt, if_neg hs, if_neg hb]
  have hkb : keyTxs (buysOf (tx_df.map normalizeTx)) k = [] := by
    rw [List.eq_nil_iff_forall_not_mem]
    intro t ht
    rcases List.mem_filter.mp ht with ⟨htb, htk⟩
    rcases List.mem_filter.mp htb with ⟨htmem, htbuy⟩
    rcases List.mem_map.mp htmem with ⟨u, hu, rfl⟩
    have hk2 : (upper u.symbol, u.asset_type) = k := by
      simpa [txKey] using htk
    rcases hall u hu hk2 with ⟨hb, hs, hsip⟩
    have htt : (normalizeTx u).txn_type = u.txn_type := by
      simp [normalizeTx, hsip]
    rw [beq_iff_eq, htt] at htbuy
    exact hb htbuy
  have hnr : netRow (tx_df.map normalizeTx) k = ⟨k.1, k.2, 0, 0, 0⟩ := by
    have hu0 : ((keyTxs (tx_df.map normalizeTx) k).map signedUnits).sum = 0 := by
      apply List.sum_eq_zero
      intro x hx
      rcases List.mem_map.mp hx with ⟨t, ht, rfl⟩
      exact hz t ht
    unfold netRow
    by_cases hbe : (buysOf (tx_df.map normalizeTx)).isEmpty
    · rw [if_pos hbe, hu0]
    · rw [if_neg hbe, hu0, hkb]
      simp
  have hr : (⟨k.1, k.2, 0, 0, 0⟩ : NetRow) ∈ netRows (tx_df.map normalizeTx) := by
    rw [← hnr]
    exact List.mem_map_of_mem _ hk
  rcases List.exists_mem_of_ne_nil _
      (mergeRow_ne_nil
        (price_snapshot fetch ((netRows (tx_df.map normalizeTx)).map NetRow.symbol))
        ⟨k.1, k.2, 0, 0, 0⟩) with ⟨p, hp⟩
  refine ⟨p, mergeRow_mem_compute_holdings hne hr hp, ?_⟩
  rcases mem_mergeRow hp with ⟨lo, rfl⟩
  exact ⟨rfl, rfl, rfl, rfl, rfl⟩

unseal Rat.add Rat.mul Rat.inv Rat.sub in
/-- Witness for C10 on a ledger holding a single DIV transaction. -/
theorem C10_witness :
    ("INFY", "stock") ∈ groupKeys (ledgerDiv.map normalizeTx) ∧
      ∃ p ∈ compute_holdings noFetch ledgerDiv,
        p.symbol = "INFY" ∧ p.asset_type = "stock" ∧ p.units = 0 ∧
          p.avg_cost = 0 ∧ p.invested = 0 :=
  ⟨by decide,
    C10_zero_impact_key_rows noFetch ledgerDiv ("INFY", "stock") (by decide) (by decide)⟩

end FinSight
